import Mathlib

/-!
Verification of the refinement-region derivation core described by the
repository's specification.  The repository's own file `setrun.py` only
invokes this core (`marching_front.select_by_flooding`,
`region_tools.ruledrectangle_covering_selected_points`, `rr.write` from the
clawpack library); the implementations are not part of the repository's
sources, so the components are modelled from the specification and the
claims are settled against these models.  Real-valued elevations and
thresholds are embedded as integers: the algorithms only use their linear
order.
-/

/-- Modelled from the spec: a Grid is a regular 2D raster of elevation
values with coordinate metadata `origin (x0, y0)`, `cell_size (dx, dy)`,
`dimensions (rows, cols)`.  The implementation behind `setrun.py`'s calls is
not in the repository's sources, so the data model follows the spec's §3. -/
structure Grid where
  x0 : ℚ
  y0 : ℚ
  dx : ℚ
  dy : ℚ
  rows : ℕ
  cols : ℕ
  elev : ℕ → ℕ → ℤ

/-- The set of valid (row, col) index pairs of a rows×cols raster. -/
def gridIndexSet (rows cols : ℕ) : Finset (ℕ × ℕ) :=
  Finset.range rows ×ˢ Finset.range cols

/-- Modelled from the spec: a SelectionMask is a boolean array congruent
with a Grid (same rows×cols); it is embedded as its dimensions together
with the finite set of cells at which it is true. -/
structure SelectionMask where
  rows : ℕ
  cols : ℕ
  tt : Finset (ℕ × ℕ)
deriving DecidableEq

/-- Modelled from the spec: the element-wise logical AND of two selection
masks (the `np.logical_and` at line 445 of `src/setrun.py`). -/
def maskAnd (m1 m2 : SelectionMask) : SelectionMask :=
  ⟨m1.rows, m1.cols, m1.tt ∩ m2.tt⟩

/-- 4-neighbor adjacency of grid cells: orthogonal neighbors only, as in
the spec's concrete scenario. -/
def adjacent (c d : ℕ × ℕ) : Prop :=
  (c.1 = d.1 ∧ (c.2 = d.2 + 1 ∨ d.2 = c.2 + 1)) ∨
  (c.2 = d.2 ∧ (c.1 = d.1 + 1 ∨ d.1 = c.1 + 1))

instance (c d : ℕ × ℕ) : Decidable (adjacent c d) := by
  unfold adjacent; exact inferInstance

/-- Modelled from the spec: a cell is admissible if its elevation lies
within the bounds, inclusive at both ends (`low ≤ value ≤ high`). -/
def admissibleCells (g : Grid) (b : ℤ × ℤ) : Finset (ℕ × ℕ) :=
  (gridIndexSet g.rows g.cols).filter fun c =>
    b.1 ≤ g.elev c.1 c.2 ∧ g.elev c.1 c.2 ≤ b.2

/-- Modelled from the spec: the seed set is every admissible cell lying
within the seed mask if one is provided, otherwise every admissible cell of
the grid (each admissible cell acts as its own seed). -/
def seedSet (g : Grid) (b : ℤ × ℤ) (seed : Option SelectionMask) :
    Finset (ℕ × ℕ) :=
  match seed with
  | none => admissibleCells g b
  | some m => (admissibleCells g b).filter fun c => c ∈ m.tt

/-- Modelled from the spec: a seed mask must be congruent with the grid. -/
def seedDimsOk (g : Grid) : Option SelectionMask → Bool
  | none => true
  | some m => m.rows == g.rows && m.cols == g.cols

/-- One breadth-first propagation round of the flood fill: the current set
plus every admissible cell adjacent to a cell of the current set. -/
def step (g : Grid) (b : ℤ × ℤ) (S : Finset (ℕ × ℕ)) : Finset (ℕ × ℕ) :=
  S ∪ (admissibleCells g b).filter fun c => ∃ d ∈ S, adjacent c d

/-- Number of propagation rounds actually performed: the cap when one is
given; with no cap, `rows * cols` rounds, after which the breadth-first
propagation has provably stabilized (the frontier is empty), so this equals
the spec's "propagate until the frontier is empty". -/
def itersFor (g : Grid) : Option ℕ → ℕ
  | none => g.rows * g.cols
  | some k => k

/-- Modelled from the spec's error taxonomy (§7). -/
inductive SelectError where
  | invalidBounds
  | dimensionMismatch
deriving DecidableEq

/-- Modelled from the spec: `select(grid, bounds, seed_mask, max_iterations)`.
Fails with `InvalidBounds` when `low > high` and with `DimensionMismatch`
when the seed mask is not congruent with the grid, before any computation;
otherwise performs multi-source breadth-first flood fill from the seed set
through admissible cells, with the propagation rounds capped by
`max_iterations` when given. -/
def FloodSelector.select (g : Grid) (b : ℤ × ℤ) (seed : Option SelectionMask)
    (maxIters : Option ℕ) : Except SelectError SelectionMask :=
  if b.1 > b.2 then .error .invalidBounds
  else if seedDimsOk g seed then
    .ok ⟨g.rows, g.cols, (step g b)^[itersFor g maxIters] (seedSet g b seed)⟩
  else .error .dimensionMismatch

/-- Modelled from the spec and lines 427–446 of `src/setrun.py`: the
four-pass pipeline producing the nearshore mask — a shallow-band pass, an
iteration-capped deep pass, a shallow-band pass seeded by the capped
result, and a very-shallow pass; the final mask is the element-wise AND of
the last shallow-band result and the very-shallow result. -/
def nearshorePipeline (g : Grid) (bandShallow bandDeep bandVeryShallow : ℤ × ℤ)
    (cap : ℕ) : Except SelectError SelectionMask := do
  let _p1 ← FloodSelector.select g bandShallow none none
  let p2 ← FloodSelector.select g bandDeep none (some cap)
  let p3 ← FloodSelector.select g bandShallow (some p2) none
  let pShallow ← FloodSelector.select g bandVeryShallow none none
  pure (maskAnd p3 pShallow)

/-- Ruling axis of the compressor: rule along rows or along columns. -/
inductive Axis where
  | rows
  | cols
deriving DecidableEq

/-- Modelled from the spec: one strip of a RuledRectangleSet, a fixed
coordinate index along the ruling axis together with an inclusive span of
cell indices along the perpendicular axis. -/
structure Strip where
  fixedIndex : ℕ
  spanStart : ℕ
  spanEnd : ℕ
deriving DecidableEq

/-- Modelled from the spec: an ordered sequence of strips along one axis. -/
structure RuledRectangleSet where
  axis : Axis
  strips : List Strip
deriving DecidableEq

/-- One scan step at a true position `n`: extend the current run if it ends
at `n - 1`, otherwise open a new run `(n, n)` (runs most recent first). -/
def rrunsStep (n : ℕ) : List (ℕ × ℕ) → List (ℕ × ℕ)
  | [] => [(n, n)]
  | (s, e) :: rest =>
    if e + 1 = n then (s, n) :: rest else (n, n) :: (s, e) :: rest

/-- Maximal runs of true values of `p` on `0..n-1`, most recent run first;
structural scan from the left, extending the current run or opening a new
one at each true position. -/
def rruns (p : ℕ → Bool) : ℕ → List (ℕ × ℕ)
  | 0 => []
  | n + 1 => if p n then rrunsStep n (rruns p n) else rruns p n

/-- Maximal runs of true values of `p` on `0..n-1`, in left-to-right order. -/
def runsOf (p : ℕ → Bool) (n : ℕ) : List (ℕ × ℕ) :=
  (rruns p n).reverse

/-- Modelled from the spec: expand a span by `pad` cells on both ends,
clipped to the grid bounds `0..n-1`. -/
def clipPad (n pad : ℕ) (r : ℕ × ℕ) : ℕ × ℕ :=
  (r.1 - pad, min (r.2 + pad) (n - 1))

/-- Fuel-driven merge of overlapping or adjacent spans in a list sorted by
span start; fuel at least the list length makes it total. -/
def mergeRunsFuel : ℕ → List (ℕ × ℕ) → List (ℕ × ℕ)
  | _, [] => []
  | _, [r] => [r]
  | 0, l => l
  | fuel + 1, (s1, e1) :: (s2, e2) :: rest =>
    if s2 ≤ e1 + 1 then mergeRunsFuel fuel ((s1, max e1 e2) :: rest)
    else (s1, e1) :: mergeRunsFuel fuel ((s2, e2) :: rest)

/-- Modelled from the spec: merge overlapping or adjacent spans within one
fixed coordinate. -/
def mergeRuns (l : List (ℕ × ℕ)) : List (ℕ × ℕ) :=
  mergeRunsFuel l.length l

/-- Generic strip scan: for each fixed coordinate `i < nFixed`, the maximal
runs of `p i` on `0..nSpan-1`, padded, clipped and merged, each run
becoming one strip. -/
def compressLines (nFixed nSpan : ℕ) (p : ℕ → ℕ → Bool) (pad : ℕ) :
    List Strip :=
  ((List.range nFixed).map fun i =>
    (mergeRuns ((runsOf (p i) nSpan).map (clipPad nSpan pad))).map
      fun se => Strip.mk i se.1 se.2).flatten

/-- Modelled from the spec: `compress(mask, axis, padding)` scans the mask
strip-by-strip along the ruling axis; each maximal contiguous run of true
cells along the perpendicular axis becomes one strip, spans being padded,
clipped to grid bounds and merged. -/
def RegionCompressor.compress (m : SelectionMask) (ax : Axis) (pad : ℕ) :
    RuledRectangleSet :=
  match ax with
  | .rows => ⟨.rows, compressLines m.rows m.cols
      (fun r c => decide ((r, c) ∈ m.tt)) pad⟩
  | .cols => ⟨.cols, compressLines m.cols m.rows
      (fun c r => decide ((r, c) ∈ m.tt)) pad⟩

/-- The cells covered by one strip, under a given ruling axis. -/
def Strip.cellsOn (ax : Axis) (st : Strip) : Finset (ℕ × ℕ) :=
  match ax with
  | .rows => (Finset.Icc st.spanStart st.spanEnd).image fun c =>
      (st.fixedIndex, c)
  | .cols => (Finset.Icc st.spanStart st.spanEnd).image fun r =>
      (r, st.fixedIndex)

/-- The cells covered by a list of strips. -/
def stripsCells (ax : Axis) (l : List Strip) : Finset (ℕ × ℕ) :=
  l.foldr (fun st acc => Strip.cellsOn ax st ∪ acc) ∅

/-- Rasterization: the union of all cells covered by the strips. -/
def RuledRectangleSet.cells (rr : RuledRectangleSet) : Finset (ℕ × ℕ) :=
  stripsCells rr.axis rr.strips

/-- The strip list the spec prescribes for the full mask: one full-span
strip per row (rows-ruled) or per column (cols-ruled). -/
def fullSpanStrips (rows cols : ℕ) : Axis → List Strip
  | .rows => (List.range rows).map fun r => Strip.mk r 0 (cols - 1)
  | .cols => (List.range cols).map fun c => Strip.mk c 0 (rows - 1)

/-- The spec's structural invariant on a strip list: sorted ascending by
fixed coordinate, and within one fixed coordinate the spans separated by a
gap (merged and pairwise non-overlapping), listed in increasing order. -/
def stripOrder (a b : Strip) : Prop :=
  a.fixedIndex < b.fixedIndex ∨
    (a.fixedIndex = b.fixedIndex ∧ a.spanEnd + 1 < b.spanStart)

/-- Modelled from the spec: a serialized strip, spatial bounds in physical
coordinates. -/
structure PhysStrip where
  fixedValue : ℚ
  spanStartPhys : ℚ
  spanEndPhys : ℚ
deriving DecidableEq

/-- Modelled from the spec: conversion of a strip to physical coordinates
via the grid's origin and cell size (rows are ruled along y, columns along
x). -/
def serializeStrip (g : Grid) (ax : Axis) (st : Strip) : PhysStrip :=
  match ax with
  | .rows => ⟨g.y0 + st.fixedIndex * g.dy, g.x0 + st.spanStart * g.dx,
      g.x0 + st.spanEnd * g.dx⟩
  | .cols => ⟨g.x0 + st.fixedIndex * g.dx, g.y0 + st.spanStart * g.dy,
      g.y0 + st.spanEnd * g.dy⟩

/-- Modelled from the spec's error taxonomy (§7): destination unwritable. -/
inductive WriteErr where
  | writeError
deriving DecidableEq

/-- The observable content of a write destination; `none` when nothing has
been published. -/
structure Destination where
  content : Option (List PhysStrip)
deriving DecidableEq

/-- Modelled from the spec: `write(ruled_rectangle_set, destination)`
buffers the whole serialization (strips in their stored order, physical
coordinates) and performs a single atomic publish; on destination I/O
failure (`ioOk = false`) it fails with `WriteError` and the destination's
observable content is unchanged. -/
def RefinementRegionWriter.write (g : Grid) (rr : RuledRectangleSet)
    (dest : Destination) (ioOk : Bool) : Except WriteErr Unit × Destination :=
  if ioOk then (.ok (), ⟨some (rr.strips.map (serializeStrip g rr.axis))⟩)
  else (.error .writeError, dest)

theorem rruns_shape (p : ℕ → Bool) :
    ∀ n, ∀ r ∈ rruns p n, r.1 ≤ r.2 ∧ r.2 < n := by
  intro n
  induction n with
  | zero => simp [rruns]
  | succ n ih =>
    intro r hr
    rw [rruns] at hr
    by_cases hp : p n
    · rw [if_pos hp] at hr
      cases hrr : rruns p n with
      | nil =>
        rw [hrr] at hr
        simp only [rrunsStep, List.mem_singleton] at hr
        subst hr
        exact ⟨le_refl _, Nat.lt_succ_self _⟩
      | cons hd rest =>
        obtain ⟨s, e⟩ := hd
        rw [hrr] at hr
        rw [rrunsStep] at hr
        have hhd : (s, e).1 ≤ (s, e).2 ∧ (s, e).2 < n :=
          ih (s, e) (hrr ▸ List.mem_cons_self _ _)
        by_cases he : e + 1 = n
        · rw [if_pos he] at hr
          rcases List.mem_cons.mp hr with h | h
          · subst h
            exact ⟨by omega, Nat.lt_succ_self _⟩
          · have := ih r (hrr ▸ List.mem_cons_of_mem _ h)
            exact ⟨this.1, by omega⟩
        · rw [if_neg he] at hr
          rcases List.mem_cons.mp hr with h | h
          · subst h
            exact ⟨le_refl _, Nat.lt_succ_self _⟩
          · have := ih r (hrr ▸ h)
            exact ⟨this.1, by omega⟩
    · rw [if_neg hp] at hr
      have := ih r hr
      exact ⟨this.1, by omega⟩

theorem rruns_cover (p : ℕ → Bool) (j : ℕ) :
    ∀ n, (∃ r ∈ rruns p n, r.1 ≤ j ∧ j ≤ r.2) ↔ (j < n ∧ p j = true) := by
  intro n
  induction n with
  | zero => simp [rruns]
  | succ n ih =>
    rw [rruns]
    by_cases hp : p n
    · rw [if_pos hp]
      cases hrr : rruns p n with
      | nil =>
        rw [hrr] at ih
        simp only [List.not_mem_nil, false_and, exists_false, false_iff,
          not_and] at ih
        simp only [rrunsStep, List.mem_singleton]
        constructor
        · rintro ⟨r, hr, h1, h2⟩
          subst hr
          have : j = n := by omega
          subst this
          exact ⟨Nat.lt_succ_self _, hp⟩
        · rintro ⟨hj, hpj⟩
          rcases Nat.lt_succ_iff_lt_or_eq.mp hj with h | h
          · exact absurd hpj (ih h)
          · subst h
            exact ⟨(j, j), rfl, le_refl _, le_refl _⟩
      | cons hd rest =>
        obtain ⟨s, e⟩ := hd
        rw [hrr] at ih
        rw [rrunsStep]
        have hs : s ≤ e ∧ e < n :=
          rruns_shape p n (s, e) (hrr ▸ List.mem_cons_self _ _)
        by_cases he : e + 1 = n
        · rw [if_pos he]
          constructor
          · rintro ⟨r, hr, h1, h2⟩
            rcases List.mem_cons.mp hr with h | h
            · subst h
              simp only at h1 h2
              by_cases hj : j ≤ e
              · have := ih.mp ⟨(s, e), List.mem_cons_self _ _, h1, hj⟩
                exact ⟨by omega, this.2⟩
              · have : j = n := by omega
                subst this
                exact ⟨Nat.lt_succ_self _, hp⟩
            · have := ih.mp ⟨r, List.mem_cons_of_mem _ h, h1, h2⟩
              exact ⟨by omega, this.2⟩
          · rintro ⟨hj, hpj⟩
            rcases Nat.lt_succ_iff_lt_or_eq.mp hj with h | h
            · obtain ⟨r, hr, h1, h2⟩ := ih.mpr ⟨h, hpj⟩
              rcases List.mem_cons.mp hr with h' | h'
              · subst h'
                exact ⟨(s, n), List.mem_cons_self _ _, h1, by omega⟩
              · exact ⟨r, List.mem_cons_of_mem _ h', h1, h2⟩
            · subst h
              exact ⟨(s, j), List.mem_cons_self _ _, by omega, le_refl _⟩
        · rw [if_neg he]
          constructor
          · rintro ⟨r, hr, h1, h2⟩
            rcases List.mem_cons.mp hr with h | h
            · subst h
              simp only at h1 h2
              have : j = n := by omega
              subst this
              exact ⟨Nat.lt_succ_self _, hp⟩
            · have := ih.mp ⟨r, h, h1, h2⟩
              exact ⟨by omega, this.2⟩
          · rintro ⟨hj, hpj⟩
            rcases Nat.lt_succ_iff_lt_or_eq.mp hj with h | h
            · obtain ⟨r, hr, h1, h2⟩ := ih.mpr ⟨h, hpj⟩
              exact ⟨r, List.mem_cons_of_mem _ hr, h1, h2⟩
            · subst h
              exact ⟨(j, j), List.mem_cons_self _ _, le_refl _, le_refl _⟩
    · rw [if_neg hp]
      constructor
      · rintro hx
        have := ih.mp hx
        exact ⟨by omega, this.2⟩
      · rintro ⟨hj, hpj⟩
        rcases Nat.lt_succ_iff_lt_or_eq.mp hj with h | h
        · exact ih.mpr ⟨h, hpj⟩
        · subst h
          exact absurd hpj (by simp [hp])

theorem rruns_gap (p : ℕ → Bool) :
    ∀ n, (rruns p n).Pairwise fun x y => y.2 + 1 < x.1 := by
  intro n
  induction n with
  | zero => simp [rruns]
  | succ n ih =>
    rw [rruns]
    by_cases hp : p n
    · rw [if_pos hp]
      cases hrr : rruns p n with
      | nil => simp [rrunsStep]
      | cons hd rest =>
        obtain ⟨s, e⟩ := hd
        rw [rrunsStep]
        have hs : s ≤ e ∧ e < n :=
          rruns_shape p n (s, e) (hrr ▸ List.mem_cons_self _ _)
        rw [hrr] at ih
        have ihc := List.pairwise_cons.mp ih
        by_cases he : e + 1 = n
        · rw [if_pos he]
          exact List.pairwise_cons.mpr ⟨fun y hy => ihc.1 y hy, ihc.2⟩
        · rw [if_neg he]
          refine List.pairwise_cons.mpr ⟨?_, ih⟩
          intro y hy
          rcases List.mem_cons.mp hy with h | h
          · subst h
            simp only
            omega
          · have := ihc.1 y h
            simp only at this ⊢
            omega
    · rw [if_neg hp]
      exact ih

theorem rruns_nil (p : ℕ → Bool) :
    ∀ n, (∀ j, j < n → p j = false) → rruns p n = [] := by
  intro n
  induction n with
  | zero => intro _; rfl
  | succ n ih =>
    intro h
    rw [rruns, if_neg (by simp [h n (Nat.lt_succ_self n)])]
    exact ih fun j hj => h j (by omega)

theorem rruns_full (p : ℕ → Bool) :
    ∀ n, (∀ j, j < n + 1 → p j = true) → rruns p (n + 1) = [(0, n)] := by
  intro n
  induction n with
  | zero =>
    intro h
    simp [rruns, rrunsStep, h 0 (by omega)]
  | succ n ih =>
    intro h
    rw [rruns, if_pos (h (n + 1) (by omega)), ih fun j hj => h j (by omega)]
    simp [rrunsStep]

theorem runsOf_shape (p : ℕ → Bool) (n : ℕ) :
    ∀ r ∈ runsOf p n, r.1 ≤ r.2 ∧ r.2 < n := by
  intro r hr
  exact rruns_shape p n r (List.mem_reverse.mp hr)

theorem runsOf_cover (p : ℕ → Bool) (n j : ℕ) :
    (∃ r ∈ runsOf p n, r.1 ≤ j ∧ j ≤ r.2) ↔ (j < n ∧ p j = true) := by
  rw [← rruns_cover p j n]
  constructor
  · rintro ⟨r, hr, h⟩
    exact ⟨r, List.mem_reverse.mp hr, h⟩
  · rintro ⟨r, hr, h⟩
    exact ⟨r, List.mem_reverse.mpr hr, h⟩

theorem runsOf_gap (p : ℕ → Bool) (n : ℕ) :
    (runsOf p n).Pairwise fun x y => x.2 + 1 < y.1 :=
  List.pairwise_reverse.mpr (rruns_gap p n)

theorem runsOf_nil (p : ℕ → Bool) (n : ℕ) (h : ∀ j, j < n → p j = false) :
    runsOf p n = [] := by
  rw [runsOf, rruns_nil p n h]
  rfl

theorem runsOf_full (p : ℕ → Bool) (n : ℕ) (h : ∀ j, j < n + 1 → p j = true) :
    runsOf p (n + 1) = [(0, n)] := by
  rw [runsOf, rruns_full p n h]
  rfl

theorem mergeRunsFuel_start :
    ∀ fuel (l : List (ℕ × ℕ)) (a : ℕ), l.length ≤ fuel + 1 →
      (∀ r ∈ l, a ≤ r.1) → ∀ o ∈ mergeRunsFuel fuel l, a ≤ o.1 := by
  intro fuel
  induction fuel with
  | zero =>
    intro l a hlen h o ho
    match l with
    | [] => simp [mergeRunsFuel] at ho
    | [r] =>
      simp only [mergeRunsFuel, List.mem_singleton] at ho
      subst ho
      exact h _ (List.mem_singleton.mpr rfl)
    | r1 :: r2 :: rest => simp at hlen
  | succ fuel ih =>
    intro l a hlen h o ho
    match l with
    | [] => simp [mergeRunsFuel] at ho
    | [r] =>
      simp only [mergeRunsFuel, List.mem_singleton] at ho
      subst ho
      exact h _ (List.mem_singleton.mpr rfl)
    | (s1, e1) :: (s2, e2) :: rest =>
      simp only [mergeRunsFuel] at ho
      split at ho
      · refine ih ((s1, max e1 e2) :: rest) a ?_ ?_ o ho
        · simp only [List.length_cons] at hlen ⊢
          omega
        · intro r hr
          rcases List.mem_cons.mp hr with h' | h'
          · subst h'
            exact h (s1, e1) (List.mem_cons_self _ _)
          · exact h r (List.mem_cons_of_mem _ (List.mem_cons_of_mem _ h'))
      · rcases List.mem_cons.mp ho with h' | h'
        · subst h'
          exact h (s1, e1) (List.mem_cons_self _ _)
        · refine ih ((s2, e2) :: rest) a ?_ ?_ o h'
          · simp only [List.length_cons] at hlen ⊢
            omega
          · intro r hr
            exact h r (List.mem_cons_of_mem _ hr)

theorem mergeRunsFuel_gap :
    ∀ fuel (l : List (ℕ × ℕ)), l.length ≤ fuel + 1 →
      l.Pairwise (fun x y => x.1 ≤ y.1) →
      (mergeRunsFuel fuel l).Pairwise fun x y => x.2 + 1 < y.1 := by
  intro fuel
  induction fuel with
  | zero =>
    intro l hlen hp
    match l with
    | [] => simp [mergeRunsFuel]
    | [r] => simp [mergeRunsFuel]
    | r1 :: r2 :: rest => simp at hlen
  | succ fuel ih =>
    intro l hlen hp
    match l with
    | [] => simp [mergeRunsFuel]
    | [r] => simp [mergeRunsFuel]
    | (s1, e1) :: (s2, e2) :: rest =>
      have hp1 := (List.pairwise_cons.mp hp).1
      have hp2 := (List.pairwise_cons.mp hp).2
      have hp21 := (List.pairwise_cons.mp hp2).1
      have hp22 := (List.pairwise_cons.mp hp2).2
      simp only [List.length_cons] at hlen
      simp only [mergeRunsFuel]
      split
      · refine ih ((s1, max e1 e2) :: rest)
          (by simp only [List.length_cons]; omega) ?_
        refine List.pairwise_cons.mpr ⟨?_, hp22⟩
        intro y hy
        exact hp1 y (List.mem_cons_of_mem _ hy)
      · rename_i hif
        refine List.pairwise_cons.mpr
          ⟨?_, ih ((s2, e2) :: rest) (by simp only [List.length_cons]; omega) hp2⟩
        intro y hy
        have hy1 : s2 ≤ y.1 := by
          refine mergeRunsFuel_start fuel ((s2, e2) :: rest) s2
            (by simp only [List.length_cons]; omega) ?_ y hy
          intro r hr
          rcases List.mem_cons.mp hr with h' | h'
          · subst h'
            exact le_refl _
          · exact hp21 r h'
        simp only
        omega

theorem mergeRunsFuel_id :
    ∀ fuel (l : List (ℕ × ℕ)), l.length ≤ fuel + 1 →
      l.Pairwise (fun x y => x.2 + 1 < y.1) → mergeRunsFuel fuel l = l := by
  intro fuel
  induction fuel with
  | zero =>
    intro l hlen hp
    match l with
    | [] => simp [mergeRunsFuel]
    | [r] => simp [mergeRunsFuel]
    | r1 :: r2 :: rest => simp at hlen
  | succ fuel ih =>
    intro l hlen hp
    match l with
    | [] => simp [mergeRunsFuel]
    | [r] => simp [mergeRunsFuel]
    | (s1, e1) :: (s2, e2) :: rest =>
      have hgap : e1 + 1 < s2 :=
        (List.pairwise_cons.mp hp).1 (s2, e2) (List.mem_cons_self _ _)
      simp only [List.length_cons] at hlen
      simp only [mergeRunsFuel]
      rw [if_neg (by omega)]
      rw [ih ((s2, e2) :: rest) (by simp only [List.length_cons]; omega)
        (List.pairwise_cons.mp hp).2]

theorem mergeRuns_gap (l : List (ℕ × ℕ))
    (h : l.Pairwise fun x y => x.1 ≤ y.1) :
    (mergeRuns l).Pairwise fun x y => x.2 + 1 < y.1 :=
  mergeRunsFuel_gap l.length l (by omega) h

theorem mergeRuns_id (l : List (ℕ × ℕ))
    (h : l.Pairwise fun x y => x.2 + 1 < y.1) : mergeRuns l = l :=
  mergeRunsFuel_id l.length l (by omega) h

theorem paddedRuns_sorted (p : ℕ → Bool) (n pad : ℕ) :
    ((runsOf p n).map (clipPad n pad)).Pairwise fun x y => x.1 ≤ y.1 := by
  rw [List.pairwise_map]
  refine List.Pairwise.imp_of_mem ?_ (runsOf_gap p n)
  intro a b ha _ hab
  have := runsOf_shape p n a ha
  simp only [clipPad]
  omega

theorem mergedRuns_gap (p : ℕ → Bool) (n pad : ℕ) :
    (mergeRuns ((runsOf p n).map (clipPad n pad))).Pairwise
      fun x y => x.2 + 1 < y.1 :=
  mergeRuns_gap _ (paddedRuns_sorted p n pad)

theorem compressLines_pairwise (nF nS : ℕ) (p : ℕ → ℕ → Bool) (pad : ℕ) :
    (compressLines nF nS p pad).Pairwise stripOrder := by
  rw [compressLines, List.pairwise_flatten]
  constructor
  · intro l hl
    obtain ⟨i, _, rfl⟩ := List.mem_map.mp hl
    rw [List.pairwise_map]
    refine List.Pairwise.imp_of_mem ?_ (mergedRuns_gap (p i) nS pad)
    intro a b _ _ hab
    exact Or.inr ⟨rfl, hab⟩
  · rw [List.pairwise_map]
    refine List.Pairwise.imp_of_mem ?_ (List.pairwise_lt_range nF)
    intro i j _ _ hij x hx y hy
    obtain ⟨se, _, rfl⟩ := List.mem_map.mp hx
    obtain ⟨se', _, rfl⟩ := List.mem_map.mp hy
    exact Or.inl hij

theorem map_clipPad_zero (p : ℕ → Bool) (n : ℕ) :
    (runsOf p n).map (clipPad n 0) = runsOf p n := by
  have hs := runsOf_shape p n
  conv_rhs => rw [← List.map_id (runsOf p n)]
  refine List.map_congr_left ?_
  intro a ha
  have := hs a ha
  obtain ⟨a1, a2⟩ := a
  simp only [clipPad, id_eq, Prod.mk.injEq]
  constructor
  · omega
  · simp only at this
    omega

theorem compressLines_zero (nF nS : ℕ) (p : ℕ → ℕ → Bool) :
    compressLines nF nS p 0 =
      ((List.range nF).map fun i =>
        (runsOf (p i) nS).map fun se => Strip.mk i se.1 se.2).flatten := by
  rw [compressLines]
  congr 1
  refine List.map_congr_left ?_
  intro i _
  rw [map_clipPad_zero, mergeRuns_id _ (runsOf_gap (p i) nS)]

theorem compressLines_cover (nF nS : ℕ) (p : ℕ → ℕ → Bool) (i j : ℕ) :
    (∃ st ∈ compressLines nF nS p 0,
        st.fixedIndex = i ∧ st.spanStart ≤ j ∧ j ≤ st.spanEnd) ↔
      (i < nF ∧ j < nS ∧ p i j = true) := by
  rw [compressLines_zero]
  constructor
  · rintro ⟨st, hst, hfix, h1, h2⟩
    rw [List.mem_flatten] at hst
    obtain ⟨l, hl, hstl⟩ := hst
    obtain ⟨i', hi', rfl⟩ := List.mem_map.mp hl
    obtain ⟨se, hse, rfl⟩ := List.mem_map.mp hstl
    simp only at hfix h1 h2
    subst hfix
    have := (runsOf_cover (p i') nS j).mp ⟨se, hse, h1, h2⟩
    exact ⟨List.mem_range.mp hi', this.1, this.2⟩
  · rintro ⟨hi, hj, hp⟩
    obtain ⟨se, hse, h1, h2⟩ := (runsOf_cover (p i) nS j).mpr ⟨hj, hp⟩
    refine ⟨Strip.mk i se.1 se.2, ?_, rfl, h1, h2⟩
    rw [List.mem_flatten]
    exact ⟨_, List.mem_map.mpr ⟨i, List.mem_range.mpr hi, rfl⟩,
      List.mem_map.mpr ⟨se, hse, rfl⟩⟩

theorem compressLines_nil (nF nS : ℕ) (p : ℕ → ℕ → Bool) (pad : ℕ)
    (h : ∀ i j, p i j = false) : compressLines nF nS p pad = [] := by
  rw [compressLines, List.flatten_eq_nil_iff]
  intro l hl
  obtain ⟨i, _, rfl⟩ := List.mem_map.mp hl
  rw [runsOf_nil (p i) nS fun j _ => h i j]
  rfl

theorem flatten_map_singleton {α β : Type} (l : List α) (f : α → β) :
    (l.map fun a => [f a]).flatten = l.map f := by
  induction l with
  | nil => rfl
  | cons hd tl ih => simp [ih]

theorem compressLines_full (nF nS : ℕ) (p : ℕ → ℕ → Bool) (hS : 0 < nS)
    (h : ∀ i j, i < nF → j < nS → p i j = true) :
    compressLines nF nS p 0 =
      (List.range nF).map fun i => Strip.mk i 0 (nS - 1) := by
  obtain ⟨k, rfl⟩ : ∃ k, nS = k + 1 := ⟨nS - 1, by omega⟩
  rw [compressLines_zero]
  rw [show ((List.range nF).map fun i =>
      (runsOf (p i) (k + 1)).map fun se => Strip.mk i se.1 se.2) =
      (List.range nF).map fun i => [Strip.mk i 0 k] from
    List.map_congr_left fun i hi => by
      rw [runsOf_full (p i) k fun j hj => h i j (List.mem_range.mp hi) hj]
      rfl]
  rw [flatten_map_singleton]
  rfl

theorem mem_cellsOn_rows (st : Strip) (x : ℕ × ℕ) :
    x ∈ st.cellsOn .rows ↔
      x.1 = st.fixedIndex ∧ st.spanStart ≤ x.2 ∧ x.2 ≤ st.spanEnd := by
  simp only [Strip.cellsOn, Finset.mem_image, Finset.mem_Icc]
  constructor
  · rintro ⟨c, hc, rfl⟩
    exact ⟨rfl, hc.1, hc.2⟩
  · rintro ⟨h1, h2, h3⟩
    exact ⟨x.2, ⟨h2, h3⟩, by rw [← h1]⟩

theorem mem_cellsOn_cols (st : Strip) (x : ℕ × ℕ) :
    x ∈ st.cellsOn .cols ↔
      x.2 = st.fixedIndex ∧ st.spanStart ≤ x.1 ∧ x.1 ≤ st.spanEnd := by
  simp only [Strip.cellsOn, Finset.mem_image, Finset.mem_Icc]
  constructor
  · rintro ⟨c, hc, rfl⟩
    exact ⟨rfl, hc.1, hc.2⟩
  · rintro ⟨h1, h2, h3⟩
    exact ⟨x.1, ⟨h2, h3⟩, by rw [← h1]⟩

theorem mem_stripsCells (ax : Axis) (l : List Strip) (x : ℕ × ℕ) :
    x ∈ stripsCells ax l ↔ ∃ st ∈ l, x ∈ st.cellsOn ax := by
  induction l with
  | nil => simp [stripsCells]
  | cons hd tl ih =>
    simp only [stripsCells, List.foldr_cons, Finset.mem_union] at ih ⊢
    constructor
    · rintro (h | h)
      · exact ⟨hd, List.mem_cons_self _ _, h⟩
      · obtain ⟨st, hst, hx⟩ := ih.mp h
        exact ⟨st, List.mem_cons_of_mem _ hst, hx⟩
    · rintro ⟨st, hst, hx⟩
      rcases List.mem_cons.mp hst with h | h
      · subst h
        exact Or.inl hx
      · exact Or.inr (ih.mpr ⟨st, h, hx⟩)

theorem step_subset (g : Grid) (b : ℤ × ℤ) (S : Finset (ℕ × ℕ)) :
    S ⊆ step g b S :=
  Finset.subset_union_left

theorem subset_iterate (g : Grid) (b : ℤ × ℤ) (S : Finset (ℕ × ℕ)) :
    ∀ n, S ⊆ (step g b)^[n] S := by
  intro n
  induction n with
  | zero => exact subset_rfl
  | succ n ih =>
    rw [Function.iterate_succ_apply']
    exact ih.trans (step_subset g b _)

theorem iterate_succ_subset (g : Grid) (b : ℤ × ℤ) (S : Finset (ℕ × ℕ))
    (n : ℕ) : (step g b)^[n] S ⊆ (step g b)^[n + 1] S := by
  rw [Function.iterate_succ_apply']
  exact step_subset g b _

theorem admissible_subset_grid (g : Grid) (b : ℤ × ℤ) :
    admissibleCells g b ⊆ gridIndexSet g.rows g.cols :=
  Finset.filter_subset _ _

theorem seedSet_subset_admissible (g : Grid) (b : ℤ × ℤ)
    (seed : Option SelectionMask) : seedSet g b seed ⊆ admissibleCells g b := by
  cases seed with
  | none => exact subset_rfl
  | some m => exact Finset.filter_subset _ _

theorem step_fixed (g : Grid) (b : ℤ × ℤ) (S : Finset (ℕ × ℕ))
    (h : admissibleCells g b ⊆ S) : step g b S = S := by
  rw [step, Finset.union_eq_left]
  exact (Finset.filter_subset _ _).trans h

theorem step_subset_grid (g : Grid) (b : ℤ × ℤ) (S : Finset (ℕ × ℕ))
    (h : S ⊆ gridIndexSet g.rows g.cols) :
    step g b S ⊆ gridIndexSet g.rows g.cols :=
  Finset.union_subset h
    ((Finset.filter_subset _ _).trans (admissible_subset_grid g b))

theorem iterate_subset_grid (g : Grid) (b : ℤ × ℤ) (S : Finset (ℕ × ℕ))
    (h : S ⊆ gridIndexSet g.rows g.cols) :
    ∀ n, (step g b)^[n] S ⊆ gridIndexSet g.rows g.cols := by
  intro n
  induction n with
  | zero => exact h
  | succ n ih =>
    rw [Function.iterate_succ_apply']
    exact step_subset_grid g b _ ih

theorem admissible_mono (g : Grid) {b1 b2 : ℤ × ℤ} (hl : b2.1 ≤ b1.1)
    (hh : b1.2 ≤ b2.2) : admissibleCells g b1 ⊆ admissibleCells g b2 := by
  intro x hx
  rw [admissibleCells, Finset.mem_filter] at hx ⊢
  exact ⟨hx.1, le_trans hl hx.2.1, le_trans hx.2.2 hh⟩

theorem seedSet_mono (g : Grid) {b1 b2 : ℤ × ℤ} (seed : Option SelectionMask)
    (h : admissibleCells g b1 ⊆ admissibleCells g b2) :
    seedSet g b1 seed ⊆ seedSet g b2 seed := by
  cases seed with
  | none => exact h
  | some m => exact Finset.filter_subset_filter _ h

theorem step_mono (g : Grid) {b1 b2 : ℤ × ℤ} {S T : Finset (ℕ × ℕ)}
    (hb : admissibleCells g b1 ⊆ admissibleCells g b2) (hST : S ⊆ T) :
    step g b1 S ⊆ step g b2 T := by
  intro x hx
  rw [step, Finset.mem_union] at hx ⊢
  rcases hx with h | h
  · exact Or.inl (hST h)
  · rw [Finset.mem_filter] at h
    obtain ⟨ha, d, hd, hadj⟩ := h
    exact Or.inr (Finset.mem_filter.mpr ⟨hb ha, d, hST hd, hadj⟩)

theorem iterate_mono (g : Grid) {b1 b2 : ℤ × ℤ}
    (hb : admissibleCells g b1 ⊆ admissibleCells g b2) {S T : Finset (ℕ × ℕ)}
    (hST : S ⊆ T) : ∀ n, (step g b1)^[n] S ⊆ (step g b2)^[n] T := by
  intro n
  induction n with
  | zero => exact hST
  | succ n ih =>
    rw [Function.iterate_succ_apply', Function.iterate_succ_apply']
    exact step_mono g hb ih

theorem iterate_eq_of_fix {α : Type} (f : α → α) (x : α) (n : ℕ)
    (h : f^[n + 1] x = f^[n] x) : ∀ k, n ≤ k → f^[k] x = f^[n] x := by
  intro k hk
  induction k, hk using Nat.le_induction with
  | base => rfl
  | succ k hk ih =>
    rw [Function.iterate_succ_apply', ih, ← Function.iterate_succ_apply' f n x]
    exact h

theorem step_progress (g : Grid) (b : ℤ × ℤ) (s0 : Finset (ℕ × ℕ)) :
    ∀ n, ((step g b)^[n + 1] s0 = (step g b)^[n] s0) ∨
      n ≤ ((step g b)^[n] s0).card := by
  intro n
  induction n with
  | zero => exact Or.inr (Nat.zero_le _)
  | succ n ih =>
    by_cases h : (step g b)^[n + 1] s0 = (step g b)^[n] s0
    · left
      calc (step g b)^[n + 1 + 1] s0
          = step g b ((step g b)^[n + 1] s0) :=
            Function.iterate_succ_apply' _ _ _
        _ = step g b ((step g b)^[n] s0) := by rw [h]
        _ = (step g b)^[n + 1] s0 := (Function.iterate_succ_apply' _ _ _).symm
    · right
      rcases ih with he | hc
      · exact absurd he h
      · have hsub := iterate_succ_subset g b s0 n
        have hss : (step g b)^[n] s0 ⊂ (step g b)^[n + 1] s0 :=
          hsub.ssubset_of_ne fun he => h he.symm
        have := Finset.card_lt_card hss
        omega

theorem iterate_stab (g : Grid) (b : ℤ × ℤ) (s0 : Finset (ℕ × ℕ))
    (hs0 : s0 ⊆ gridIndexSet g.rows g.cols) :
    (step g b)^[g.rows * g.cols + 1] s0 = (step g b)^[g.rows * g.cols] s0 := by
  have hcard : (gridIndexSet g.rows g.cols).card = g.rows * g.cols := by
    rw [gridIndexSet, Finset.card_product, Finset.card_range, Finset.card_range]
  rcases step_progress g b s0 (g.rows * g.cols) with h | h
  · exact h
  · have h1 : (step g b)^[g.rows * g.cols] s0 ⊆ gridIndexSet g.rows g.cols :=
      iterate_subset_grid g b s0 hs0 _
    have h2 : (step g b)^[g.rows * g.cols] s0 = gridIndexSet g.rows g.cols :=
      Finset.eq_of_subset_of_card_le h1 (by rw [hcard]; exact h)
    have h3 : (step g b)^[g.rows * g.cols + 1] s0 ⊆
        gridIndexSet g.rows g.cols := iterate_subset_grid g b s0 hs0 _
    have h4 : gridIndexSet g.rows g.cols ⊆
        (step g b)^[g.rows * g.cols + 1] s0 :=
      h2 ▸ iterate_succ_subset g b s0 _
    rw [Finset.Subset.antisymm h3 h4, h2]

theorem iterate_cap (g : Grid) (b : ℤ × ℤ) (s0 : Finset (ℕ × ℕ))
    (hs0 : s0 ⊆ gridIndexSet g.rows g.cols) (k : ℕ)
    (hk : g.rows * g.cols ≤ k) :
    (step g b)^[k] s0 = (step g b)^[g.rows * g.cols] s0 :=
  iterate_eq_of_fix (step g b) s0 (g.rows * g.cols)
    (iterate_stab g b s0 hs0) k hk

theorem select_eq_ok {g : Grid} {b : ℤ × ℤ} {seed : Option SelectionMask}
    {k : Option ℕ} {m : SelectionMask} :
    FloodSelector.select g b seed k = .ok m ↔
      b.1 ≤ b.2 ∧ seedDimsOk g seed = true ∧
        m = ⟨g.rows, g.cols,
          (step g b)^[itersFor g k] (seedSet g b seed)⟩ := by
  rw [FloodSelector.select]
  split_ifs with h1 h2
  · exact iff_of_false (by simp) (by rintro ⟨hb, -, -⟩; omega)
  · simp only [Except.ok.injEq]
    constructor
    · intro he
      exact ⟨by omega, h2, he.symm⟩
    · rintro ⟨-, -, rfl⟩
      rfl
  · exact iff_of_false (by simp) (by rintro ⟨-, hd, -⟩; exact h2 hd)

theorem select_no_seed (g : Grid) (b : ℤ × ℤ) (k : Option ℕ)
    (hb : b.1 ≤ b.2) :
    FloodSelector.select g b none k =
      .ok ⟨g.rows, g.cols, admissibleCells g b⟩ := by
  rw [select_eq_ok]
  refine ⟨hb, rfl, ?_⟩
  have hfix : step g b (admissibleCells g b) = admissibleCells g b :=
    step_fixed g b _ subset_rfl
  rw [show seedSet g b none = admissibleCells g b from rfl,
    Function.iterate_fixed hfix]

instance : DecidableEq (Except SelectError SelectionMask) := fun a b =>
  match a, b with
  | .error e1, .error e2 =>
    if h : e1 = e2 then .isTrue (congrArg Except.error h)
    else .isFalse fun hcon => h (Except.error.inj hcon)
  | .error _, .ok _ => .isFalse fun hcon => Except.noConfusion hcon
  | .ok _, .error _ => .isFalse fun hcon => Except.noConfusion hcon
  | .ok m1, .ok m2 =>
    if h : m1 = m2 then .isTrue (congrArg Except.ok h)
    else .isFalse fun hcon => h (Except.ok.inj hcon)

/-- The spec's concrete-scenario 4×4 grid of elevations
`[[5,5,5,5],[5,-2,-2,5],[5,-2,-2,5],[5,5,5,5]]` (unit cells at the origin). -/
def g4 : Grid :=
  ⟨0, 0, 1, 1, 4, 4, fun r c =>
    if (r = 1 ∨ r = 2) ∧ (c = 1 ∨ c = 2) then -2 else 5⟩

/-- The spec's concrete-scenario bounds `(-10, 0)`. -/
def bounds4 : ℤ × ℤ := (-10, 0)

/-- The central 2×2 block of the 4×4 grid. -/
def center4 : Finset (ℕ × ℕ) := {(1, 1), (1, 2), (2, 1), (2, 2)}

/-- A 1×2 grid whose cell (0,0) has elevation 5 and cell (0,1) elevation 0. -/
def cgrid : Grid := ⟨0, 0, 1, 1, 1, 2, fun _ c => if c = 0 then 5 else 0⟩

/-- A seed mask on `cgrid` whose only true cell (0,0) is not admissible for
bounds `(0, 0)`. -/
def cseed : SelectionMask := ⟨1, 2, {(0, 0)}⟩

/-- A seed mask on `cgrid` whose only true cell (0,1) is admissible for
bounds `(0, 0)`. -/
def cseedAdm : SelectionMask := ⟨1, 2, {(0, 1)}⟩

/-- A 1×1 grid of elevation 0. -/
def gUnit : Grid := ⟨0, 0, 1, 1, 1, 1, fun _ _ => 0⟩

/-- C1: compressing any boolean mask with padding 0 and rasterizing the
returned strips back onto a grid of the same dimensions reproduces the
input mask exactly, for either ruling axis; the empty mask yields an empty
RuledRectangleSet and the full mask yields one full-span strip per row (or
column). -/
theorem c1_compress_roundtrip (m : SelectionMask) (ax : Axis)
    (hm : m.tt ⊆ gridIndexSet m.rows m.cols) :
    (RegionCompressor.compress m ax 0).cells = m.tt ∧
    (m.tt = ∅ → (RegionCompressor.compress m ax 0).strips = []) ∧
    (0 < m.rows → 0 < m.cols → m.tt = gridIndexSet m.rows m.cols →
      (RegionCompressor.compress m ax 0).strips =
        fullSpanStrips m.rows m.cols ax) := by
  cases ax with
  | rows =>
    have key : ∀ x : ℕ × ℕ,
        x ∈ (RegionCompressor.compress m .rows 0).cells ↔
          x.1 < m.rows ∧ x.2 < m.cols ∧ x ∈ m.tt := by
      intro x
      rw [show (RegionCompressor.compress m Axis.rows 0).cells =
        stripsCells Axis.rows (compressLines m.rows m.cols
          (fun r c => decide ((r, c) ∈ m.tt)) 0) from rfl, mem_stripsCells]
      constructor
      · rintro ⟨st, hst, hx⟩
        rw [mem_cellsOn_rows] at hx
        have hcov := (compressLines_cover m.rows m.cols _ x.1 x.2).mp
          ⟨st, hst, hx.1.symm, hx.2.1, hx.2.2⟩
        refine ⟨hcov.1, hcov.2.1, ?_⟩
        have hd := of_decide_eq_true hcov.2.2
        simpa using hd
      · rintro ⟨h1, h2, hx⟩
        obtain ⟨st, hst, hfix, hs1, hs2⟩ :=
          (compressLines_cover m.rows m.cols
              (fun r c => decide ((r, c) ∈ m.tt)) x.1 x.2).mpr
            ⟨h1, h2, decide_eq_true
              (show (x.1, x.2) ∈ m.tt by simpa using hx)⟩
        exact ⟨st, hst, (mem_cellsOn_rows st x).mpr ⟨hfix.symm, hs1, hs2⟩⟩
    refine ⟨?_, ?_, ?_⟩
    · ext x
      rw [key x]
      constructor
      · exact fun h => h.2.2
      · intro hx
        have hb := hm hx
        rw [gridIndexSet, Finset.mem_product, Finset.mem_range,
          Finset.mem_range] at hb
        exact ⟨hb.1, hb.2, hx⟩
    · intro h
      show compressLines m.rows m.cols _ 0 = []
      apply compressLines_nil
      intro i j
      rw [h]
      simp
    · intro _ hc hfull
      show compressLines m.rows m.cols _ 0 =
        (List.range m.rows).map fun r => Strip.mk r 0 (m.cols - 1)
      apply compressLines_full _ _ _ hc
      intro i j hi hj
      rw [hfull]
      exact decide_eq_true (by
        rw [gridIndexSet, Finset.mem_product]
        exact ⟨Finset.mem_range.mpr hi, Finset.mem_range.mpr hj⟩)
  | cols =>
    have key : ∀ x : ℕ × ℕ,
        x ∈ (RegionCompressor.compress m .cols 0).cells ↔
          x.2 < m.cols ∧ x.1 < m.rows ∧ x ∈ m.tt := by
      intro x
      rw [show (RegionCompressor.compress m Axis.cols 0).cells =
        stripsCells Axis.cols (compressLines m.cols m.rows
          (fun c r => decide ((r, c) ∈ m.tt)) 0) from rfl, mem_stripsCells]
      constructor
      · rintro ⟨st, hst, hx⟩
        rw [mem_cellsOn_cols] at hx
        have hcov := (compressLines_cover m.cols m.rows _ x.2 x.1).mp
          ⟨st, hst, hx.1.symm, hx.2.1, hx.2.2⟩
        refine ⟨hcov.1, hcov.2.1, ?_⟩
        have hd := of_decide_eq_true hcov.2.2
        simpa using hd
      · rintro ⟨h1, h2, hx⟩
        obtain ⟨st, hst, hfix, hs1, hs2⟩ :=
          (compressLines_cover m.cols m.rows
              (fun c r => decide ((r, c) ∈ m.tt)) x.2 x.1).mpr
            ⟨h1, h2, decide_eq_true
              (show (x.1, x.2) ∈ m.tt by simpa using hx)⟩
        exact ⟨st, hst, (mem_cellsOn_cols st x).mpr ⟨hfix.symm, hs1, hs2⟩⟩
    refine ⟨?_, ?_, ?_⟩
    · ext x
      rw [key x]
      constructor
      · exact fun h => h.2.2
      · intro hx
        have hb := hm hx
        rw [gridIndexSet, Finset.mem_product, Finset.mem_range,
          Finset.mem_range] at hb
        exact ⟨hb.2, hb.1, hx⟩
    · intro h
      show compressLines m.cols m.rows _ 0 = []
      apply compressLines_nil
      intro i j
      rw [h]
      simp
    · intro hr _ hfull
      show compressLines m.cols m.rows _ 0 =
        (List.range m.cols).map fun c => Strip.mk c 0 (m.rows - 1)
      apply compressLines_full _ _ _ hr
      intro i j hi hj
      rw [hfull]
      exact decide_eq_true (by
        rw [gridIndexSet, Finset.mem_product]
        exact ⟨Finset.mem_range.mpr hj, Finset.mem_range.mpr hi⟩)

theorem c1_witness :
    (RegionCompressor.compress ⟨2, 2, gridIndexSet 2 2⟩ .rows 0).cells =
      gridIndexSet 2 2 ∧
    (RegionCompressor.compress ⟨2, 2, gridIndexSet 2 2⟩ .rows 0).strips =
      fullSpanStrips 2 2 .rows := by
  have h := c1_compress_roundtrip ⟨2, 2, gridIndexSet 2 2⟩ .rows (by decide)
  exact ⟨h.1, h.2.2 (by decide) (by decide) rfl⟩

/-- C8: every RuledRectangleSet returned by `compress` has its strips
sorted ascending by fixed coordinate and, within one fixed coordinate, its
spans merged and pairwise non-overlapping, for every mask, ruling axis and
padding value. -/
theorem c8_strip_invariant (m : SelectionMask) (ax : Axis) (pad : ℕ) :
    (RegionCompressor.compress m ax pad).strips.Pairwise stripOrder := by
  cases ax with
  | rows => exact compressLines_pairwise _ _ _ _
  | cols => exact compressLines_pairwise _ _ _ _

/-- C9: `write` either publishes the whole serialization (strips in their
stored order, spans converted to physical coordinates via the grid's origin
and cell size) or fails with `WriteError` leaving the destination's
observable content unchanged. -/
theorem c9_atomic_write (g : Grid) (rr : RuledRectangleSet)
    (dest : Destination) :
    RefinementRegionWriter.write g rr dest true =
      (.ok (), ⟨some (rr.strips.map (serializeStrip g rr.axis))⟩) ∧
    RefinementRegionWriter.write g rr dest false =
      (.error .writeError, dest) :=
  ⟨rfl, rfl⟩

theorem except_bind_ok {ε α β : Type} (a : α) (f : α → Except ε β) :
    (Except.ok a : Except ε α) >>= f = f a := rfl

/-- C2: the final nearshore mask handed to the compressor equals the
element-wise logical AND of the seeded shallow-band mask and the
very-shallow mask, true at a cell exactly when both masks are true there. -/
theorem c2_nearshore_intersection (g : Grid)
    (bandShallow bandDeep bandVeryShallow : ℤ × ℤ) (cap : ℕ)
    (p2 p3 ps : SelectionMask)
    (h2 : FloodSelector.select g bandDeep none (some cap) = .ok p2)
    (h3 : FloodSelector.select g bandShallow (some p2) none = .ok p3)
    (hs : FloodSelector.select g bandVeryShallow none none = .ok ps) :
    nearshorePipeline g bandShallow bandDeep bandVeryShallow cap =
      .ok (maskAnd p3 ps) ∧
    ∀ c : ℕ × ℕ, c ∈ (maskAnd p3 ps).tt ↔ c ∈ p3.tt ∧ c ∈ ps.tt := by
  constructor
  · have hb1 : bandShallow.1 ≤ bandShallow.2 := (select_eq_ok.mp h3).1
    have h1 : FloodSelector.select g bandShallow none none =
        .ok ⟨g.rows, g.cols, admissibleCells g bandShallow⟩ :=
      select_no_seed g bandShallow none hb1
    rw [nearshorePipeline]
    simp only [h1, h2, h3, hs, except_bind_ok]
    rfl
  · intro c
    exact Finset.mem_inter

theorem c2_witness :
    nearshorePipeline gUnit (0, 0) (0, 0) (0, 0) 0 =
      .ok (maskAnd ⟨1, 1, {(0, 0)}⟩ ⟨1, 1, {(0, 0)}⟩) ∧
    ((0, 0) ∈ (maskAnd (⟨1, 1, {(0, 0)}⟩ : SelectionMask)
        ⟨1, 1, {(0, 0)}⟩).tt ↔
      (0, 0) ∈ ({(0, 0)} : Finset (ℕ × ℕ)) ∧
        (0, 0) ∈ ({(0, 0)} : Finset (ℕ × ℕ))) := by
  have h := c2_nearshore_intersection gUnit (0, 0) (0, 0) (0, 0) 0
    ⟨1, 1, {(0, 0)}⟩ ⟨1, 1, {(0, 0)}⟩ ⟨1, 1, {(0, 0)}⟩
    (by decide) (by decide) (by decide)
  exact ⟨h.1, h.2 (0, 0)⟩

/-- C3: widening the bounds (decreasing the low threshold and increasing
the high threshold) applied to the same grid and seed can only add cells to
the selector's output, never remove them. -/
theorem c3_bounds_monotone (g : Grid) (seed : Option SelectionMask)
    (lo1 hi1 lo2 hi2 : ℤ) (m1 m2 : SelectionMask)
    (hl : lo2 ≤ lo1) (hh : hi1 ≤ hi2)
    (e1 : FloodSelector.select g (lo1, hi1) seed none = .ok m1)
    (e2 : FloodSelector.select g (lo2, hi2) seed none = .ok m2) :
    m1.tt ⊆ m2.tt := by
  obtain ⟨-, -, rfl⟩ := select_eq_ok.mp e1
  obtain ⟨-, -, rfl⟩ := select_eq_ok.mp e2
  have hadm : admissibleCells g (lo1, hi1) ⊆ admissibleCells g (lo2, hi2) :=
    admissible_mono g hl hh
  exact iterate_mono g hadm (seedSet_mono g seed hadm) _

theorem c3_witness : ({(0, 0)} : Finset (ℕ × ℕ)) ⊆ {(0, 0)} :=
  c3_bounds_monotone gUnit none 0 0 (-1) 1 ⟨1, 1, {(0, 0)}⟩ ⟨1, 1, {(0, 0)}⟩
    (by decide) (by decide) (by decide) (by decide)

/-- C4: the number of selected cells is non-decreasing in the iteration
cap, and once the cap reaches `rows * cols` the capped result equals the
uncapped result. -/
theorem c4_cap_monotone_convergence (g : Grid) (b : ℤ × ℤ)
    (seed : Option SelectionMask) (hb : b.1 ≤ b.2)
    (hd : seedDimsOk g seed = true) :
    (∀ k m1 m2, FloodSelector.select g b seed (some k) = .ok m1 →
      FloodSelector.select g b seed (some (k + 1)) = .ok m2 →
      m1.tt.card ≤ m2.tt.card) ∧
    (∀ k, g.rows * g.cols ≤ k →
      FloodSelector.select g b seed (some k) =
        FloodSelector.select g b seed none) := by
  constructor
  · intro k m1 m2 e1 e2
    obtain ⟨-, -, rfl⟩ := select_eq_ok.mp e1
    obtain ⟨-, -, rfl⟩ := select_eq_ok.mp e2
    exact Finset.card_le_card (iterate_succ_subset g b _ k)
  · intro k hk
    have hs0 : seedSet g b seed ⊆ gridIndexSet g.rows g.cols :=
      (seedSet_subset_admissible g b seed).trans (admissible_subset_grid g b)
    have e1 : FloodSelector.select g b seed (some k) =
        .ok ⟨g.rows, g.cols, (step g b)^[k] (seedSet g b seed)⟩ :=
      select_eq_ok.mpr ⟨hb, hd, rfl⟩
    have e2 : FloodSelector.select g b seed none =
        .ok ⟨g.rows, g.cols,
          (step g b)^[g.rows * g.cols] (seedSet g b seed)⟩ :=
      select_eq_ok.mpr ⟨hb, hd, rfl⟩
    rw [e1, e2, iterate_cap g b _ hs0 k hk]

theorem c4_witness :
    (⟨4, 4, center4⟩ : SelectionMask).tt.card ≤
      (⟨4, 4, center4⟩ : SelectionMask).tt.card ∧
    FloodSelector.select g4 bounds4 none (some 16) =
      FloodSelector.select g4 bounds4 none none := by
  have h := c4_cap_monotone_convergence g4 bounds4 none (by decide) rfl
  exact ⟨h.1 0 ⟨4, 4, center4⟩ ⟨4, 4, center4⟩ (by decide) (by decide),
    h.2 16 (by decide)⟩

/-- C5: on the spec's 4×4 grid with bounds (-10, 0), no seed and 4-neighbor
adjacency, the selector returns exactly the central 2×2 block, and
compressing that mask with row ruling and padding 0 returns exactly the two
strips row 1 span [1, 2] and row 2 span [1, 2]. -/
theorem c5_concrete_scenario :
    FloodSelector.select g4 bounds4 none none = .ok ⟨4, 4, center4⟩ ∧
    RegionCompressor.compress ⟨4, 4, center4⟩ .rows 0 =
      ⟨.rows, [⟨1, 1, 2⟩, ⟨2, 1, 2⟩]⟩ := by
  constructor
  · rw [select_no_seed g4 bounds4 none (by decide)]
    exact congrArg (fun S => Except.ok (SelectionMask.mk 4 4 S))
      (by decide : admissibleCells g4 bounds4 = center4)
  · decide

/-- C6: with a 0-iteration cap, `select` returns exactly the seed set (the
admissible cells that self-seed or lie in the seed mask), with no
propagation. -/
theorem c6_zero_iterations (g : Grid) (b : ℤ × ℤ)
    (seed : Option SelectionMask) (hb : b.1 ≤ b.2)
    (hd : seedDimsOk g seed = true) :
    FloodSelector.select g b seed (some 0) =
      .ok ⟨g.rows, g.cols, seedSet g b seed⟩ := by
  rw [select_eq_ok]
  exact ⟨hb, hd, by
    rw [show itersFor g (some 0) = 0 from rfl, Function.iterate_zero_apply]⟩

theorem c6_witness :
    FloodSelector.select g4 bounds4 none (some 0) = .ok ⟨4, 4, center4⟩ := by
  rw [c6_zero_iterations g4 bounds4 none (by decide) rfl]
  exact congrArg (fun S => Except.ok (SelectionMask.mk 4 4 S))
    (by decide : seedSet g4 bounds4 none = center4)

/-- C7: for every grid, seed and iteration cap, `select` with `low > high`
fails with `InvalidBounds` and returns no selection mask; the error is
raised before any computation. -/
theorem c7_invalid_bounds (g : Grid) (seed : Option SelectionMask)
    (k : Option ℕ) (lo hi : ℤ) (h : hi < lo) :
    FloodSelector.select g (lo, hi) seed k = .error .invalidBounds := by
  rw [FloodSelector.select, if_pos (show (lo, hi).1 > (lo, hi).2 from h)]

theorem c7_witness :
    FloodSelector.select g4 (3, -5) none none = .error .invalidBounds :=
  c7_invalid_bounds g4 none none 3 (-5) (by decide)

/-- C10 (amended): the mask returned by `select` contains every admissible
cell of the supplied seed mask; seed cells whose elevation lies outside the
bounds are not selected. -/
theorem c10_seed_superset_amended (g : Grid) (b : ℤ × ℤ)
    (sm : SelectionMask) (k : Option ℕ) (m : SelectionMask)
    (h : FloodSelector.select g b (some sm) k = .ok m) :
    ∀ c ∈ sm.tt, c ∈ admissibleCells g b → c ∈ m.tt := by
  obtain ⟨-, -, rfl⟩ := select_eq_ok.mp h
  intro c hc hadm
  have hseed : c ∈ seedSet g b (some sm) := Finset.mem_filter.mpr ⟨hadm, hc⟩
  exact subset_iterate g b _ _ hseed

theorem c10_witness : ((0, 1) : ℕ × ℕ) ∈ (⟨1, 2, {(0, 1)}⟩ : SelectionMask).tt :=
  c10_seed_superset_amended cgrid (0, 0) cseedAdm none ⟨1, 2, {(0, 1)}⟩
    (by decide) (0, 1) (by decide) (by decide)

/-- C10 counterexample: on the 1×2 grid `cgrid` with bounds (0, 0), the
seed mask `cseed` is true at (0, 0), yet the returned mask is false there,
because (0, 0) has elevation 5 and is not admissible: the output is not a
superset of the supplied seed set. -/
theorem c10_seed_superset_counterexample :
    (0, 0) ∈ cseed.tt ∧
    FloodSelector.select cgrid (0, 0) (some cseed) none = .ok ⟨1, 2, ∅⟩ ∧
    (0, 0) ∉ (⟨1, 2, ∅⟩ : SelectionMask).tt :=
  ⟨by decide, by decide, by decide⟩
